import Mathlib

/-!
Verification development for the retrieval ranking and context-assembly layer
of the Chat-With-Data repository.  The Lean definitions below are a shallow
embedding of src/retrieval/ranking.py together with the constants of
src/config/settings.py and the candidate post-processing of
src/rag/pipeline.py.  Python floats are modelled as rationals, token counts
as naturals, Python dictionaries as insertion-ordered association lists, and
the difflib SequenceMatcher ratio as an abstract similarity function
parameter (the filter only compares it against a threshold).
-/

namespace ChatWithData

/-- Does the first character list lead (start) the second one. -/
def listLeads : List Char → List Char → Bool
  | [], _ => true
  | _ :: _, [] => false
  | a :: as, b :: bs => a == b && listLeads as bs

/-- All suffixes of a character list. -/
def tailsOf : List Char → List (List Char)
  | [] => [[]]
  | c :: cs => (c :: cs) :: tailsOf cs

/-- Worker for pyWords: scan the characters, building the current word in
reverse in the accumulator and emitting it at each whitespace run. -/
def pyWordsGo : List Char → List Char → List String
  | [], acc => if acc.isEmpty then [] else [String.mk acc.reverse]
  | c :: cs, acc =>
    if c.isWhitespace then
      if acc.isEmpty then pyWordsGo cs []
      else String.mk acc.reverse :: pyWordsGo cs []
    else pyWordsGo cs (c :: acc)

/-- Python str.split with no argument: split on whitespace runs, dropping
empty pieces. -/
def pyWords (s : String) : List String :=
  pyWordsGo s.data []

/-- Python " ".join applied to a list of strings. -/
def intercalateSpace : List String → String
  | [] => ""
  | [s] => s
  | s :: s2 :: rest => s ++ " " ++ intercalateSpace (s2 :: rest)

/-- Python idiom " ".join(s.split()): collapse whitespace runs to single
spaces and trim (used by normalize_page_content on list items). -/
def collapseWs (s : String) : String :=
  intercalateSpace (pyWords s)

/-- Python str.strip with no argument: drop leading and trailing
whitespace. -/
def pyStrip (s : String) : String :=
  String.mk
    (((s.data.dropWhile Char.isWhitespace).reverse.dropWhile
      Char.isWhitespace).reverse)

/-- Python str.lower (ASCII case folding). -/
def pyLower (s : String) : String :=
  String.mk (s.data.map Char.toLower)

/-- Worker for pyReplace: left-to-right non-overlapping replacement; the
counter skips the remaining characters of a region that was just
replaced. -/
def replaceGo (pat rep : List Char) : List Char → Nat → List Char
  | [], _ => []
  | c :: cs, 0 =>
    if pat ≠ [] ∧ listLeads pat (c :: cs) = true then
      rep ++ replaceGo pat rep cs (pat.length - 1)
    else c :: replaceGo pat rep cs 0
  | _ :: cs, skip + 1 => replaceGo pat rep cs skip

/-- Python str.replace for a non-empty pattern: replace every
non-overlapping occurrence, scanning left to right. -/
def pyReplace (s pat rep : String) : String :=
  String.mk (replaceGo pat.data rep.data s.data 0)

/-- Model of a Python page_content value: None, a string, or a list of
strings. -/
inductive PContent where
  | pcNone : PContent
  | pcStr : String → PContent
  | pcList : List String → PContent
deriving DecidableEq

/-- Model of a langchain Document: an object identity (Python id), a
page_content value and a metadata dict of string keys and values. -/
structure Doc where
  oid : Nat
  page_content : PContent
  metadata : List (String × String)
deriving DecidableEq

/-- Lookup in an insertion-ordered dict model; Python dict.get returning
None for a missing key. -/
def lookupMeta : List (String × String) → String → Option String
  | [], _ => Option.none
  | (k, v) :: rest, key => if k = key then some v else lookupMeta rest key

/-- ranking.py normalize_page_content: None becomes the empty string, a list
has each item whitespace-collapsed and the items joined by single spaces,
and any other value is converted with str (for a string: unchanged). -/
def normalize_page_content : PContent → String
  | PContent.pcNone => ""
  | PContent.pcList items => intercalateSpace (items.map collapseWs)
  | PContent.pcStr s => s

/-- ranking.py count_tokens: whitespace-delimited word count of the
normalized page content (an empty text counts 0). -/
def count_tokens_doc (d : Doc) : Nat :=
  (pyWords (normalize_page_content d.page_content)).length

/-! Constants from src/config/settings.py (lines 72-80). -/

/-- settings.py DENSE_CANDIDATE_K. -/
def DENSE_CANDIDATE_K : Nat := 50

/-- settings.py RERANK_TOP_K. -/
def RERANK_TOP_K : Nat := 12

/-- settings.py FINAL_CONTEXT_DOCS. -/
def FINAL_CONTEXT_DOCS : Nat := 15

/-- settings.py SIMILARITY_THRESHOLD (line 76). -/
def SIMILARITY_THRESHOLD : ℚ := 75 / 100

/-- settings.py DENSE_SCORE_WEIGHT. -/
def DENSE_SCORE_WEIGHT : ℚ := 7 / 10

/-- settings.py SPARSE_SCORE_WEIGHT. -/
def SPARSE_SCORE_WEIGHT : ℚ := 3 / 10

/-- settings.py CONTEXT_TOKEN_BUDGET (line 80). -/
def CONTEXT_TOKEN_BUDGET : Nat := 3500

/-- Similarity threshold passed to filter_near_duplicates by the exhaustive
branch of retrieve_relevant_chunks (pipeline.py line 250). -/
def EXHAUSTIVE_SIMILARITY_THRESHOLD : ℚ := 90 / 100

/-- Value of max_chunks passed to assemble_context_entries by the exhaustive
branch of retrieve_relevant_chunks (pipeline.py line 253). -/
def EXHAUSTIVE_MAX_CHUNKS : Nat := 100

/-- Minimum of a nonempty rational list, Python min(values). -/
def listMin (v : ℚ) (vs : List ℚ) : ℚ := vs.foldl min v

/-- Maximum of a nonempty rational list, Python max(values). -/
def listMax (v : ℚ) (vs : List ℚ) : ℚ := vs.foldl max v

/-- ranking.py normalize_scores: empty list maps to the empty list; when
the spread between max and min is below 1e-9 every value maps to 1.0;
otherwise min-max normalization. -/
def normalize_scores : List ℚ → List ℚ
  | [] => []
  | v :: vs =>
    if |listMax v vs - listMin v vs| < 1 / 1000000000 then
      List.replicate (v :: vs).length 1
    else
      (v :: vs).map (fun x => (x - listMin v vs) / (listMax v vs - listMin v vs))

/-- Model of a candidate entry dict flowing through the retrieval pipeline:
a doc plus optional score and rerank_score fields (Option.none models a
missing dict key). -/
structure CtxEntry where
  doc : Doc
  score : Option ℚ
  rerank_score : Option ℚ
deriving DecidableEq

/-- Python entry.get with nested default used by assemble_context_entries:
rerank_score if present, else score if present, else 0. -/
def sortKeyScore (e : CtxEntry) : ℚ :=
  (e.rerank_score.getD (e.score.getD 0))

/-- Text used by filter_near_duplicates for an entry:
normalize_page_content(doc.page_content).strip(). -/
def filter_text (e : CtxEntry) : String :=
  pyStrip (normalize_page_content e.doc.page_content)

/-- Loop of ranking.py filter_near_duplicates with the accepted list as the
accumulator: drop an entry whose stripped normalized text is empty, drop it
when its similarity ratio against some already-accepted entry exceeds the
threshold, and otherwise append it to the accepted list.  The difflib
SequenceMatcher ratio is the abstract parameter sim. -/
def filterGo (sim : String → String → ℚ) (thr : ℚ) :
    List CtxEntry → List CtxEntry → List CtxEntry
  | acc, [] => acc
  | acc, e :: rest =>
    if filter_text e = "" then
      filterGo sim thr acc rest
    else if acc.any (fun a => thr < sim (filter_text e) (filter_text a)) then
      filterGo sim thr acc rest
    else
      filterGo sim thr (acc ++ [e]) rest

/-- ranking.py filter_near_duplicates (lines 145-163). -/
def filter_near_duplicates (sim : String → String → ℚ) (thr : ℚ)
    (entries : List CtxEntry) : List CtxEntry :=
  filterGo sim thr [] entries

/-- ranking.py chunk_key (lines 98-99): the chunk_id metadata value when the
metadata dict is truthy (None when the key is missing), and str(id(doc))
when the metadata dict is empty or None. -/
def chunk_key (d : Doc) : Option String :=
  match d.metadata with
  | [] => some (Nat.repr d.oid)
  | _ :: _ => lookupMeta d.metadata "chunk_id"

/-- Aggregation record of merge_candidate_scores: the first doc seen for a
key together with the running dense and sparse channel values. -/
structure AggEntry where
  doc : Doc
  dense_score : ℚ
  sparse_score : ℚ
deriving DecidableEq

/-- One dense-channel step of merge_candidate_scores: setdefault on the key
followed by dense_score = max(dense_score, score). -/
def addDense (d : Doc) (s : ℚ) :
    List (Option String × AggEntry) → List (Option String × AggEntry)
  | [] => [(chunk_key d, ⟨d, max 0 s, 0⟩)]
  | (k, a) :: rest =>
    if k = chunk_key d then
      (k, { a with dense_score := max a.dense_score s }) :: rest
    else
      (k, a) :: addDense d s rest

/-- One sparse-channel step of merge_candidate_scores: setdefault on the key
followed by sparse_score = max(sparse_score, score). -/
def addSparse (d : Doc) (s : ℚ) :
    List (Option String × AggEntry) → List (Option String × AggEntry)
  | [] => [(chunk_key d, ⟨d, 0, max 0 s⟩)]
  | (k, a) :: rest =>
    if k = chunk_key d then
      (k, { a with sparse_score := max a.sparse_score s }) :: rest
    else
      (k, a) :: addSparse d s rest

/-- Aggregation phase of merge_candidate_scores (lines 96-110): fold the
dense candidates and then the sparse candidates into the insertion-ordered
dict keyed by chunk_key. -/
def aggregate_scores (dense sparse : List (Doc × ℚ)) :
    List (Option String × AggEntry) :=
  sparse.foldl (fun agg p => addSparse p.1 p.2 agg)
    (dense.foldl (fun agg p => addDense p.1 p.2 agg) [])

/-- Stable descending insertion for a rational sort key: an element is
placed after every already-placed element whose key is at least as large,
which models Python sorted(key=..., reverse=True). -/
def insertDescBy {α : Type} (key : α → ℚ) (x : α) : List α → List α
  | [] => [x]
  | y :: ys => if key x ≤ key y then y :: insertDescBy key x ys else x :: y :: ys

/-- Stable descending sort by a rational key (Python sorted with
reverse=True). -/
def sortDescBy {α : Type} (key : α → ℚ) (l : List α) : List α :=
  l.foldl (fun acc x => insertDescBy key x acc) []

/-- Combined entry produced by merge_candidate_scores. -/
structure Combined where
  doc : Doc
  score : ℚ
deriving DecidableEq

/-- ranking.py merge_candidate_scores (lines 90-124): aggregate per-key max
channel values, min-max normalize each channel across the aggregated
entries, combine with the configured weights and sort descending. -/
def merge_candidate_scores (dense sparse : List (Doc × ℚ))
    (dense_weight sparse_weight : ℚ) : List Combined :=
  let entries := (aggregate_scores dense sparse).map Prod.snd
  match entries with
  | [] => []
  | _ :: _ =>
    let dense_norm := normalize_scores (entries.map AggEntry.dense_score)
    let sparse_norm := normalize_scores (entries.map AggEntry.sparse_score)
    let combined := (entries.zip (dense_norm.zip sparse_norm)).map
      (fun p => Combined.mk p.1.doc
        (dense_weight * p.2.1 + sparse_weight * p.2.2))
    sortDescBy Combined.score combined

/-- Python or-chaining over possibly-falsy metadata values: a missing key or
an empty string both fall through. -/
def metaTruthy (m : List (String × String)) (k : String) : Option String :=
  match lookupMeta m k with
  | Option.none => Option.none
  | some s => if s = "" then Option.none else some s

/-- Cluster name used by assemble_context_entries (line 194):
metadata.get("document_name") or metadata.get("source") or
"unknown-source". -/
def doc_name_of (d : Doc) : String :=
  (metaTruthy d.metadata "document_name").getD
    ((metaTruthy d.metadata "source").getD "unknown-source")

/-- One step of the doc_clusters grouping loop (line 195):
doc_clusters.setdefault(doc_name, []).append(entry) on an
insertion-ordered dict of clusters. -/
def addToCluster :
    List (String × List CtxEntry) → String → CtxEntry →
    List (String × List CtxEntry)
  | [], n, e => [(n, [e])]
  | (m, es) :: rest, n, e =>
    if m = n then (m, es ++ [e]) :: rest
    else (m, es) :: addToCluster rest n e

/-- Grouping of candidate entries by document name (lines 189-195). -/
def groupByName (l : List CtxEntry) : List (String × List CtxEntry) :=
  l.foldl (fun acc e => addToCluster acc (doc_name_of e.doc) e) []

/-- Sort key of a document cluster (lines 202-206): the score of its first
entry after the in-cluster sort. -/
def clusterSortKey (p : String × List CtxEntry) : ℚ :=
  match p.2 with
  | [] => 0
  | e :: _ => sortKeyScore e

/-- assemble_context_entries line 217: question_type in ["list", "count"]. -/
def is_list_or_count (question_type : String) : Bool :=
  question_type == "list" || question_type == "count"

/-- Effective token budget of assemble_context_entries (lines 220-224):
tripled base budget in exhaustive mode or for list/count queries. -/
def effective_token_budget (exhaustive_mode : Bool) (question_type : String) :
    Nat :=
  if exhaustive_mode || is_list_or_count question_type then
    CONTEXT_TOKEN_BUDGET * 3
  else CONTEXT_TOKEN_BUDGET

/-- Per-cluster minimum of assemble_context_entries (lines 230-234): the
halved formula applies only to list/count question types. -/
def min_chunks_per_doc (question_type : String) (max_chunks n_clusters : Nat) :
    Nat :=
  if is_list_or_count question_type then
    if n_clusters ≠ 0 then max 1 (max_chunks / (n_clusters * 2)) else 1
  else
    if n_clusters ≠ 0 then max 2 (max_chunks / n_clusters) else 1

/-- Inner loop of the quota pass (lines 238-255) over one cluster, carrying
the accepted list, the running token total and the chunks_added counter:
stop at max_chunks, skip over-budget entries in default mode once something
was accepted, and stop after min_chunks_per_doc acceptances. -/
def pass1Cluster (lenient : Bool) (budget mc K : Nat) :
    List CtxEntry → List CtxEntry × Nat → Nat → List CtxEntry × Nat
  | [], st, _ => st
  | e :: rest, (final, tok), added =>
    if mc ≤ final.length then (final, tok)
    else
      let t := count_tokens_doc e.doc
      if lenient = false ∧ budget < tok + t ∧ final ≠ [] then
        pass1Cluster lenient budget mc K rest (final, tok) added
      else if K ≤ added + 1 then (final ++ [e], tok + t)
      else pass1Cluster lenient budget mc K rest (final ++ [e], tok + t) (added + 1)

/-- Quota pass (lines 237-255): run pass1Cluster over every sorted cluster
in order. -/
def pass1 (lenient : Bool) (budget mc K : Nat) :
    List (String × List CtxEntry) → List CtxEntry × Nat → List CtxEntry × Nat
  | [], st => st
  | (_, cl) :: rest, st =>
    pass1 lenient budget mc K rest (pass1Cluster lenient budget mc K cl st 0)

/-- One round of the round-robin fill pass (lines 263-281): advance each
cluster iterator once, counting the iterators that still produced an entry,
breaking out when max_chunks is reached and skipping over-budget entries in
default mode. -/
def rrRound (lenient : Bool) (budget mc : Nat) :
    List (List CtxEntry) → List CtxEntry × Nat → Nat →
    List (List CtxEntry) × (List CtxEntry × Nat) × Nat
  | [], st, active => ([], st, active)
  | it :: rest, (final, tok), active =>
    match it with
    | [] =>
      let r := rrRound lenient budget mc rest (final, tok) active
      ([] :: r.1, r.2.1, r.2.2)
    | e :: it2 =>
      if mc ≤ final.length then (it2 :: rest, (final, tok), active + 1)
      else
        let t := count_tokens_doc e.doc
        if lenient = false ∧ budget < tok + t then
          let r := rrRound lenient budget mc rest (final, tok) (active + 1)
          (it2 :: r.1, r.2.1, r.2.2)
        else
          let r := rrRound lenient budget mc rest (final ++ [e], tok + t) (active + 1)
          (it2 :: r.1, r.2.1, r.2.2)

/-- While loop of the fill pass (lines 262-281), with explicit fuel (each
executed round with a positive previous active count consumes at least one
pending entry, so the fuel used below suffices). -/
def rrLoop (lenient : Bool) (budget mc : Nat) :
    Nat → Nat → List (List CtxEntry) → List CtxEntry × Nat →
    List CtxEntry × Nat
  | 0, _, _, st => st
  | fuel + 1, active, iters, st =>
    if 0 < active ∧ st.1.length < mc then
      let r := rrRound lenient budget mc iters st 0
      rrLoop lenient budget mc fuel r.2.2 r.1 r.2.1
    else st

/-- Clusters as assemble_context_entries sees them after lines 189-206:
grouped by document name, sorted inside each cluster by score and across
clusters by the score of their best entry. -/
def sortedClustersOf (entries : List CtxEntry) : List (String × List CtxEntry) :=
  sortDescBy clusterSortKey
    ((groupByName entries).map (fun p => (p.1, sortDescBy sortKeyScore p.2)))

/-- ranking.py assemble_context_entries (lines 173-292): group candidates
by document name, sort inside clusters and across clusters by score, run
the quota pass and then the round-robin fill pass. -/
def assemble_context_entries (entries : List CtxEntry) (max_chunks : Nat)
    (exhaustive_mode : Bool) (question_type : String) : List CtxEntry :=
  match entries with
  | [] => []
  | _ :: _ =>
    let sorted_clusters := sortedClustersOf entries
    let lenient := exhaustive_mode || is_list_or_count question_type
    let budget := effective_token_budget exhaustive_mode question_type
    let K := min_chunks_per_doc question_type max_chunks sorted_clusters.length
    let st1 := pass1 lenient budget max_chunks K sorted_clusters ([], 0)
    let iters := sorted_clusters.map (fun p => p.2.drop K)
    let fuel := (iters.map List.length).sum + 2
    (rrLoop lenient budget max_chunks fuel iters.length iters st1).1

/-- Total whitespace-token count of a list of entries. -/
def sumTokens (l : List CtxEntry) : Nat :=
  (l.map (fun e => count_tokens_doc e.doc)).sum

/-- Python substring containment: needle in hay. -/
def strContains (hay needle : String) : Bool :=
  (tailsOf hay.data).any (fun t => listLeads needle.data t)

/-- pipeline.py lines 207-208 and 213-214: drop the common file extensions
and turn separators into spaces (applied to lowercased names). -/
def strip_base (s : String) : String :=
  let s1 := pyReplace (pyReplace (pyReplace s ".pdf" "") ".docx" "") ".xlsx" ""
  pyReplace (pyReplace s1 "_" " ") "-" " "

/-- Document-name matching of the exhaustive-mode post filter (pipeline.py
lines 205-229): exact lowercase match, base-form match, or substring
containment in either direction, on both the raw and base forms. -/
def doc_filter_matches (document_filter : String) (d : Doc) : Bool :=
  let doc_name := (lookupMeta d.metadata "document_name").getD ""
  let fl := pyLower document_filter
  let fb := strip_base fl
  let nl := pyLower doc_name
  let nb := strip_base nl
  fl == nl || fb == nb || strContains nl fl || strContains fl nl ||
    (fb != "" && nb != "" && (strContains nb fb || strContains fb nb))

/-- Document filter post-processing of exhaustive retrieval (pipeline.py
lines 199-246): keep the matching candidates, but when the filter matches
zero candidates fall back to the full unfiltered candidate list. -/
def apply_document_filter (document_filter : String)
    (candidates : List CtxEntry) : List CtxEntry :=
  let filtered := candidates.filter
    (fun c => doc_filter_matches document_filter c.doc)
  if filtered.length = 0 then candidates else filtered

/-! Concrete documents and entries used by witnesses and counterexamples. -/

/-- Two-entry document A, first chunk. -/
def dA1 : Doc := ⟨1, PContent.pcStr "alpha one", [("document_name", "A")]⟩

/-- Two-entry document A, second chunk. -/
def dA2 : Doc := ⟨2, PContent.pcStr "alpha two", [("document_name", "A")]⟩

/-- Two-entry document B, first chunk. -/
def dB1 : Doc := ⟨3, PContent.pcStr "beta one", [("document_name", "B")]⟩

/-- Two-entry document B, second chunk. -/
def dB2 : Doc := ⟨4, PContent.pcStr "beta two", [("document_name", "B")]⟩

/-- Candidate entry for dA1. -/
def eA1 : CtxEntry := ⟨dA1, some 10, Option.none⟩

/-- Candidate entry for dA2. -/
def eA2 : CtxEntry := ⟨dA2, some 9, Option.none⟩

/-- Candidate entry for dB1. -/
def eB1 : CtxEntry := ⟨dB1, some 5, Option.none⟩

/-- Candidate entry for dB2. -/
def eB2 : CtxEntry := ⟨dB2, some 4, Option.none⟩

/-- A candidate set with two clusters of two entries each. -/
def ces : List CtxEntry := [eA1, eA2, eB1, eB2]

/-- Doc with non-empty metadata that lacks a chunk_id. -/
def dX : Doc := ⟨7, PContent.pcStr "x text", [("source", "a")]⟩

/-- Another doc with non-empty metadata that lacks a chunk_id. -/
def dY : Doc := ⟨8, PContent.pcStr "y text", [("source", "b")]⟩

/-- Doc with empty metadata (per-object-identity fallback applies). -/
def dE1 : Doc := ⟨31, PContent.pcStr "e one", []⟩

/-- Another doc with empty metadata. -/
def dE2 : Doc := ⟨32, PContent.pcStr "e two", []⟩

/-- Entry whose raw text contains a double space. -/
def uRaw : CtxEntry := ⟨⟨21, PContent.pcStr "a  b", []⟩, Option.none, Option.none⟩

/-- Entry whose text is the whitespace-collapsed form of uRaw. -/
def uCollapsed : CtxEntry := ⟨⟨22, PContent.pcStr "a b", []⟩, Option.none, Option.none⟩

/-- Entry whose text is pure whitespace. -/
def uBlank : CtxEntry := ⟨⟨23, PContent.pcStr "   ", []⟩, Option.none, Option.none⟩

/-- Duplicate-filter test entry one. -/
def ce1 : CtxEntry := ⟨⟨25, PContent.pcStr "alpha", []⟩, Option.none, Option.none⟩

/-- Duplicate-filter test entry two. -/
def ce2 : CtxEntry := ⟨⟨26, PContent.pcStr "beta", []⟩, Option.none, Option.none⟩

/-! Filter lemmas. -/

/-- Chain property of an accepted list: processed in order, every element
has non-empty text and similarity at most the threshold against everything
accepted before it. -/
def OkChain (sim : String → String → ℚ) (thr : ℚ) :
    List CtxEntry → List CtxEntry → Prop
  | _, [] => True
  | acc, e :: rest =>
    filter_text e ≠ "" ∧
    (∀ a ∈ acc, sim (filter_text e) (filter_text a) ≤ thr) ∧
    OkChain sim thr (acc ++ [e]) rest

theorem filterGo_of_okChain (sim : String → String → ℚ) (thr : ℚ) :
    ∀ (l acc : List CtxEntry), OkChain sim thr acc l →
      filterGo sim thr acc l = acc ++ l := by
  intro l
  induction l with
  | nil => intro acc _; simp [filterGo]
  | cons e rest ih =>
    intro acc h
    obtain ⟨h1, h2, h3⟩ := h
    have hany : acc.any (fun a => decide (thr < sim (filter_text e) (filter_text a))) = false := by
      simp only [List.any_eq_false, decide_eq_true_eq, not_lt]
      exact h2
    simp only [filterGo, if_neg h1]
    rw [if_neg (by simp [hany]), ih (acc ++ [e]) h3, List.append_assoc]
    rfl

theorem filterGo_split (sim : String → String → ℚ) (thr : ℚ) :
    ∀ (l acc : List CtxEntry), ∃ δ,
      filterGo sim thr acc l = acc ++ δ ∧ OkChain sim thr acc δ := by
  intro l
  induction l with
  | nil => intro acc; exact ⟨[], by simp [filterGo], trivial⟩
  | cons e rest ih =>
    intro acc
    by_cases h1 : filter_text e = ""
    · obtain ⟨δ, hEq, hOk⟩ := ih acc
      exact ⟨δ, by simp only [filterGo, if_pos h1]; exact hEq, hOk⟩
    · by_cases h2 : acc.any (fun a => decide (thr < sim (filter_text e) (filter_text a))) = true
      · obtain ⟨δ, hEq, hOk⟩ := ih acc
        refine ⟨δ, ?_, hOk⟩
        simp only [filterGo, if_neg h1]
        rw [if_pos (by simp [h2])]
        exact hEq
      · obtain ⟨δ, hEq, hOk⟩ := ih (acc ++ [e])
        refine ⟨e :: δ, ?_, ?_⟩
        · simp only [filterGo, if_neg h1]
          rw [if_neg (by simpa using h2), hEq, List.append_assoc]
          rfl
        · refine ⟨h1, ?_, hOk⟩
          intro a ha
          have := List.any_eq_false.mp (Bool.eq_false_iff.mpr h2) a ha
          simpa using this

theorem filterGo_append (sim : String → String → ℚ) (thr : ℚ) :
    ∀ (l1 l2 acc : List CtxEntry),
      filterGo sim thr acc (l1 ++ l2) =
        filterGo sim thr (filterGo sim thr acc l1) l2 := by
  intro l1
  induction l1 with
  | nil => intro l2 acc; simp [filterGo]
  | cons e rest ih =>
    intro l2 acc
    by_cases h1 : filter_text e = ""
    · simp only [List.cons_append, filterGo, if_pos h1]; exact ih l2 acc
    · by_cases h2 : acc.any (fun a => decide (thr < sim (filter_text e) (filter_text a))) = true
      · simp only [List.cons_append, filterGo, if_neg h1]
        rw [if_pos (by simp [h2]), if_pos (by simp [h2])]
        exact ih l2 acc
      · simp only [List.cons_append, filterGo, if_neg h1]
        rw [if_neg (by simpa using h2), if_neg (by simpa using h2)]
        exact ih l2 (acc ++ [e])

theorem filterGo_text_ne (sim : String → String → ℚ) (thr : ℚ) :
    ∀ (l acc : List CtxEntry), (∀ a ∈ acc, filter_text a ≠ "") →
      ∀ x ∈ filterGo sim thr acc l, filter_text x ≠ "" := by
  intro l
  induction l with
  | nil => intro acc hacc x hx; exact hacc x (by simpa [filterGo] using hx)
  | cons e rest ih =>
    intro acc hacc x hx
    by_cases h1 : filter_text e = ""
    · exact ih acc hacc x (by simpa only [filterGo, if_pos h1] using hx)
    · by_cases h2 : acc.any (fun a => decide (thr < sim (filter_text e) (filter_text a))) = true
      · refine ih acc hacc x ?_
        have := hx
        simp only [filterGo, if_neg h1] at this
        rwa [if_pos (by simp [h2])] at this
      · refine ih (acc ++ [e]) ?_ x ?_
        · intro a ha
          rcases List.mem_append.mp ha with h | h
          · exact hacc a h
          · simpa using (List.mem_singleton.mp h) ▸ h1
        · have := hx
          simp only [filterGo, if_neg h1] at this
          rwa [if_neg (by simpa using h2)] at this

/-- C10: filter_near_duplicates is idempotent: for every entry list, every
similarity function and every threshold, applying the filter to its own
output returns that output unchanged. -/
theorem C10_filter_idempotent :
    ∀ (sim : String → String → ℚ) (thr : ℚ) (entries : List CtxEntry),
      filter_near_duplicates sim thr (filter_near_duplicates sim thr entries) =
        filter_near_duplicates sim thr entries := by
  intro sim thr entries
  obtain ⟨δ, hEq, hOk⟩ := filterGo_split sim thr entries []
  unfold filter_near_duplicates at *
  rw [hEq]
  simp only [List.nil_append] at hEq hOk ⊢
  simpa using filterGo_of_okChain sim thr δ [] hOk

/-- C2 counterexample: the default similarity threshold of
filter_near_duplicates is settings.SIMILARITY_THRESHOLD = 0.75, not 0.82,
and the difference is observable: a candidate whose similarity against the
accepted entry is 0.80 is dropped under the actual default but would be kept
under a 0.82 threshold. -/
theorem C2_counterexample :
    SIMILARITY_THRESHOLD = 75 / 100 ∧
    ¬ SIMILARITY_THRESHOLD = 82 / 100 ∧
    filter_near_duplicates (fun _ _ => 4 / 5) SIMILARITY_THRESHOLD [ce1, ce2] = [ce1] ∧
    filter_near_duplicates (fun _ _ => 4 / 5) (82 / 100) [ce1, ce2] = [ce1, ce2] := by
  refine ⟨rfl, by with_unfolding_all decide, by with_unfolding_all decide,
    by with_unfolding_all decide⟩

/-- C2 (amended): the duplicate filter default threshold is 0.75 (the
settings comment records that it was reduced from 0.82), exhaustive
retrieval passes 0.90, and an entry with non-empty normalized text is
dropped exactly when its similarity ratio against some already-accepted
entry exceeds the threshold in use: processing the next entry extends the
accepted list by that entry unless its text is empty or some accepted entry
is too similar. -/
theorem C2_threshold_and_drop_rule_amended :
    SIMILARITY_THRESHOLD = 75 / 100 ∧
    EXHAUSTIVE_SIMILARITY_THRESHOLD = 90 / 100 ∧
    ∀ (sim : String → String → ℚ) (thr : ℚ) (l1 : List CtxEntry) (e : CtxEntry),
      filter_near_duplicates sim thr (l1 ++ [e]) =
        if filter_text e = "" ∨
            (filter_near_duplicates sim thr l1).any
              (fun a => decide (thr < sim (filter_text e) (filter_text a))) = true then
          filter_near_duplicates sim thr l1
        else filter_near_duplicates sim thr l1 ++ [e] := by
  refine ⟨rfl, rfl, ?_⟩
  intro sim thr l1 e
  unfold filter_near_duplicates
  rw [filterGo_append sim thr l1 [e] []]
  by_cases h1 : filter_text e = ""
  · simp only [filterGo, if_pos h1]
    rw [if_pos (Or.inl h1)]
  · by_cases h2 : (filterGo sim thr [] l1).any
        (fun a => decide (thr < sim (filter_text e) (filter_text a))) = true
    · simp only [filterGo, if_neg h1]
      rw [if_pos (by simp [h2]), if_pos (Or.inr h2)]
    · simp only [filterGo, if_neg h1]
      rw [if_neg (by simpa using h2), if_neg (by simp [h1, h2])]

/-- C5 counterexample: the text the filter actually compares is only
trimmed, not whitespace-collapsed: for a plain string page content with a
double space the filter text keeps the double space, differing from the
collapsed form the claim prescribes, and a similarity function that is 1
exactly on equal texts keeps both entries even though their claimed
normalized forms coincide. -/
theorem C5_counterexample :
    filter_text uRaw = "a  b" ∧
    collapseWs "a  b" = "a b" ∧
    ("a  b" : String) ≠ "a b" ∧
    filter_near_duplicates (fun x y => if x = y then 1 else 0) (3 / 4)
      [uCollapsed, uRaw] = [uCollapsed, uRaw] ∧
    collapseWs (filter_text uRaw) = collapseWs (filter_text uCollapsed) := by
  refine ⟨by decide, by decide, by decide, by with_unfolding_all decide, by decide⟩

/-- C5 (amended): the filter text of an entry is the page content converted
to a string and trimmed: whitespace runs are collapsed only inside
list-valued page content (each item collapsed and the items joined by
single spaces), while plain string content keeps its interior whitespace;
an entry whose trimmed text is empty is dropped and every surviving entry
has non-empty trimmed text, which is the text used for the similarity
comparison. -/
theorem C5_normalization_amended :
    ∀ (sim : String → String → ℚ) (thr : ℚ) (entries : List CtxEntry),
      (∀ e ∈ filter_near_duplicates sim thr entries, filter_text e ≠ "") ∧
      (∀ e : CtxEntry, filter_text e = "" →
        e ∉ filter_near_duplicates sim thr entries) ∧
      (∀ (e : CtxEntry) (s : String), e.doc.page_content = PContent.pcStr s →
        filter_text e = pyStrip s) ∧
      (∀ (e : CtxEntry) (items : List String),
        e.doc.page_content = PContent.pcList items →
        filter_text e = pyStrip (intercalateSpace (items.map collapseWs))) := by
  intro sim thr entries
  refine ⟨?_, ?_, ?_, ?_⟩
  · intro e he
    exact filterGo_text_ne sim thr entries [] (by intro a ha; cases ha) e he
  · intro e hempty hmem
    exact filterGo_text_ne sim thr entries [] (by intro a ha; cases ha) e hmem hempty
  · intro e s hs
    unfold filter_text normalize_page_content
    rw [hs]
  · intro e items hs
    unfold filter_text normalize_page_content
    rw [hs]

/-- C5 witness: instantiating the amended normalization theorem at a
concrete whitespace-only entry. -/
theorem C5_witness :
    uBlank ∉ filter_near_duplicates (fun _ _ => 0) (3 / 4) [uBlank, ce1] :=
  (C5_normalization_amended (fun _ _ => 0) (3 / 4) [uBlank, ce1]).2.1 uBlank
    (by decide)

/-! Fusion lemmas. -/

/-- Dict access on the aggregation association list. -/
def lookupAgg (k : Option String) : List (Option String × AggEntry) → Option AggEntry
  | [] => Option.none
  | (k2, a) :: rest => if k2 = k then some a else lookupAgg k rest

/-- Scores contributed to a dedup key by one channel of candidates. -/
def channelScores (k : Option String) (l : List (Doc × ℚ)) : List ℚ :=
  (l.filter (fun p => decide (chunk_key p.1 = k))).map Prod.snd

/-- Fold of max starting at zero, the value a channel accumulates. -/
def maxQ0 (l : List ℚ) : ℚ := l.foldl max 0

/-- Dense channel value recorded for a key (0 when the key is absent). -/
def denseValAt (k : Option String) (agg : List (Option String × AggEntry)) : ℚ :=
  ((lookupAgg k agg).map AggEntry.dense_score).getD 0

/-- Sparse channel value recorded for a key (0 when the key is absent). -/
def sparseValAt (k : Option String) (agg : List (Option String × AggEntry)) : ℚ :=
  ((lookupAgg k agg).map AggEntry.sparse_score).getD 0

theorem denseValAt_addDense (d : Doc) (s : ℚ) (k : Option String) :
    ∀ agg, denseValAt k (addDense d s agg) =
      if chunk_key d = k then max (denseValAt k agg) s else denseValAt k agg := by
  intro agg
  induction agg with
  | nil =>
    by_cases h : chunk_key d = k
    · simp [addDense, denseValAt, lookupAgg, h]
    · simp [addDense, denseValAt, lookupAgg, h]
  | cons p rest ih =>
    obtain ⟨k2, a⟩ := p
    simp only [addDense]
    by_cases h2 : k2 = chunk_key d
    · rw [if_pos h2]
      by_cases h : k2 = k
      · have hdk : chunk_key d = k := h2.symm.trans h
        simp [denseValAt, lookupAgg, h, hdk]
      · have hdk : ¬ chunk_key d = k := fun hh => h (h2.trans hh)
        simp [denseValAt, lookupAgg, h, hdk]
    · rw [if_neg h2]
      by_cases h : k2 = k
      · have hdk : ¬ chunk_key d = k := fun hh => h2 (h.trans hh.symm)
        simp [denseValAt, lookupAgg, h, hdk]
      · simp only [denseValAt, lookupAgg, if_neg h]
        exact ih

theorem sparseValAt_addDense (d : Doc) (s : ℚ) (k : Option String) :
    ∀ agg, sparseValAt k (addDense d s agg) = sparseValAt k agg := by
  intro agg
  induction agg with
  | nil =>
    by_cases h : chunk_key d = k
    · simp [addDense, sparseValAt, lookupAgg, h]
    · simp [addDense, sparseValAt, lookupAgg, h]
  | cons p rest ih =>
    obtain ⟨k2, a⟩ := p
    simp only [addDense]
    by_cases h2 : k2 = chunk_key d
    · rw [if_pos h2]
      by_cases h : k2 = k
      · simp [sparseValAt, lookupAgg, h]
      · simp [sparseValAt, lookupAgg, h]
    · rw [if_neg h2]
      by_cases h : k2 = k
      · simp [sparseValAt, lookupAgg, h]
      · simp only [sparseValAt, lookupAgg, if_neg h]
        exact ih

theorem sparseValAt_addSparse (d : Doc) (s : ℚ) (k : Option String) :
    ∀ agg, sparseValAt k (addSparse d s agg) =
      if chunk_key d = k then max (sparseValAt k agg) s else sparseValAt k agg := by
  intro agg
  induction agg with
  | nil =>
    by_cases h : chunk_key d = k
    · simp [addSparse, sparseValAt, lookupAgg, h]
    · simp [addSparse, sparseValAt, lookupAgg, h]
  | cons p rest ih =>
    obtain ⟨k2, a⟩ := p
    simp only [addSparse]
    by_cases h2 : k2 = chunk_key d
    · rw [if_pos h2]
      by_cases h : k2 = k
      · have hdk : chunk_key d = k := h2.symm.trans h
        simp [sparseValAt, lookupAgg, h, hdk]
      · have hdk : ¬ chunk_key d = k := fun hh => h (h2.trans hh)
        simp [sparseValAt, lookupAgg, h, hdk]
    · rw [if_neg h2]
      by_cases h : k2 = k
      · have hdk : ¬ chunk_key d = k := fun hh => h2 (h.trans hh.symm)
        simp [sparseValAt, lookupAgg, h, hdk]
      · simp only [sparseValAt, lookupAgg, if_neg h]
        exact ih

theorem denseValAt_addSparse (d : Doc) (s : ℚ) (k : Option String) :
    ∀ agg, denseValAt k (addSparse d s agg) = denseValAt k agg := by
  intro agg
  induction agg with
  | nil =>
    by_cases h : chunk_key d = k
    · simp [addSparse, denseValAt, lookupAgg, h]
    · simp [addSparse, denseValAt, lookupAgg, h]
  | cons p rest ih =>
    obtain ⟨k2, a⟩ := p
    simp only [addSparse]
    by_cases h2 : k2 = chunk_key d
    · rw [if_pos h2]
      by_cases h : k2 = k
      · simp [denseValAt, lookupAgg, h]
      · simp [denseValAt, lookupAgg, h]
    · rw [if_neg h2]
      by_cases h : k2 = k
      · simp [denseValAt, lookupAgg, h]
      · simp only [denseValAt, lookupAgg, if_neg h]
        exact ih

theorem denseValAt_foldDense (k : Option String) :
    ∀ (l : List (Doc × ℚ)) (agg : List (Option String × AggEntry)),
      denseValAt k (l.foldl (fun ag p => addDense p.1 p.2 ag) agg) =
        (channelScores k l).foldl max (denseValAt k agg) := by
  intro l
  induction l with
  | nil => intro agg; simp [channelScores]
  | cons p l ih =>
    intro agg
    simp only [List.foldl_cons]
    rw [ih (addDense p.1 p.2 agg), denseValAt_addDense]
    by_cases h : chunk_key p.1 = k
    · simp [channelScores, List.filter_cons, h]
    · simp [channelScores, List.filter_cons, h]

theorem sparseValAt_foldDense (k : Option String) :
    ∀ (l : List (Doc × ℚ)) (agg : List (Option String × AggEntry)),
      sparseValAt k (l.foldl (fun ag p => addDense p.1 p.2 ag) agg) =
        sparseValAt k agg := by
  intro l
  induction l with
  | nil => intro agg; rfl
  | cons p l ih =>
    intro agg
    simp only [List.foldl_cons]
    rw [ih (addDense p.1 p.2 agg), sparseValAt_addDense]

theorem sparseValAt_foldSparse (k : Option String) :
    ∀ (l : List (Doc × ℚ)) (agg : List (Option String × AggEntry)),
      sparseValAt k (l.foldl (fun ag p => addSparse p.1 p.2 ag) agg) =
        (channelScores k l).foldl max (sparseValAt k agg) := by
  intro l
  induction l with
  | nil => intro agg; simp [channelScores]
  | cons p l ih =>
    intro agg
    simp only [List.foldl_cons]
    rw [ih (addSparse p.1 p.2 agg), sparseValAt_addSparse]
    by_cases h : chunk_key p.1 = k
    · simp [channelScores, List.filter_cons, h]
    · simp [channelScores, List.filter_cons, h]

theorem denseValAt_foldSparse (k : Option String) :
    ∀ (l : List (Doc × ℚ)) (agg : List (Option String × AggEntry)),
      denseValAt k (l.foldl (fun ag p => addSparse p.1 p.2 ag) agg) =
        denseValAt k agg := by
  intro l
  induction l with
  | nil => intro agg; rfl
  | cons p l ih =>
    intro agg
    simp only [List.foldl_cons]
    rw [ih (addSparse p.1 p.2 agg), denseValAt_addSparse]

theorem denseValAt_aggregate (dense sparse : List (Doc × ℚ)) (k : Option String) :
    denseValAt k (aggregate_scores dense sparse) = maxQ0 (channelScores k dense) := by
  unfold aggregate_scores maxQ0
  rw [denseValAt_foldSparse, denseValAt_foldDense]
  rfl

theorem sparseValAt_aggregate (dense sparse : List (Doc × ℚ)) (k : Option String) :
    sparseValAt k (aggregate_scores dense sparse) = maxQ0 (channelScores k sparse) := by
  unfold aggregate_scores maxQ0
  rw [sparseValAt_foldSparse, sparseValAt_foldDense]
  rfl

/-- C8 counterexample: a dense channel value is clamped below at zero by
the setdefault initialization, so for a candidate with a negative dense
score the recorded value is 0, not the maximum dense score seen (-1). -/
theorem C8_counterexample :
    (aggregate_scores [(dX, -1)] []).map (fun p => p.2.dense_score) = [0] ∧
    ((-1 : ℚ)) ≠ 0 := by
  refine ⟨by with_unfolding_all decide, by norm_num⟩

/-- C8 (amended): for every dedup key present in the aggregation, the
recorded dense value is the fold of max over the dense scores of that key
starting at 0 (the maximum seen for non-negative scores, and 0 for a key
appearing only in the other channel), and symmetrically for sparse; in
particular dense=[(A,0.9),(A,0.5)] with sparse=[(A,0.3)] aggregates to
dense 0.9 and sparse 0.3. -/
theorem C8_fusion_max_aggregation_amended :
    (∀ (dense sparse : List (Doc × ℚ)) (k : Option String) (a : AggEntry),
      lookupAgg k (aggregate_scores dense sparse) = some a →
        a.dense_score = maxQ0 (channelScores k dense) ∧
        a.sparse_score = maxQ0 (channelScores k sparse)) ∧
    (aggregate_scores [(dX, 9 / 10), (dX, 5 / 10)] [(dX, 3 / 10)]).map
      (fun p => (p.2.dense_score, p.2.sparse_score)) = [(9 / 10, 3 / 10)] := by
  constructor
  · intro dense sparse k a h
    have hd := denseValAt_aggregate dense sparse k
    have hs := sparseValAt_aggregate dense sparse k
    rw [denseValAt, h] at hd
    rw [sparseValAt, h] at hs
    exact ⟨hd, hs⟩
  · with_unfolding_all decide

/-- C8 witness: instantiating the aggregation characterization at a
concrete single dense candidate. -/
theorem C8_witness :
    (⟨dX, 1, 0⟩ : AggEntry).dense_score =
        maxQ0 (channelScores Option.none [(dX, 1)]) ∧
    (⟨dX, 1, 0⟩ : AggEntry).sparse_score =
        maxQ0 (channelScores Option.none ([] : List (Doc × ℚ))) :=
  C8_fusion_max_aggregation_amended.1 [(dX, 1)] [] Option.none ⟨dX, 1, 0⟩
    (by with_unfolding_all decide)

/-- C4 counterexample: two distinct documents whose non-empty metadata
both lack a chunk_id share the dedup key None and are merged into a single
fused entry by merge_candidate_scores. -/
theorem C4_counterexample :
    chunk_key dX = chunk_key dY ∧ dX ≠ dY ∧
    (merge_candidate_scores [(dX, 1), (dY, 2)] [] DENSE_SCORE_WEIGHT
      SPARSE_SCORE_WEIGHT).length = 1 := by
  refine ⟨by decide, by decide, by with_unfolding_all decide⟩

/-- C4 (amended): the dedup key is the chunk_id metadata value when the
metadata dict is non-empty (the Python None value when the key is absent),
and the per-object-identity fallback applies only when the metadata dict is
empty or None; hence two documents with empty metadata and distinct id
strings are never merged, while two documents whose keys coincide (in
particular non-empty metadata both lacking chunk_id) are merged into a
single fused entry. -/
theorem C4_chunk_key_amended :
    (∀ d : Doc, d.metadata ≠ [] → chunk_key d = lookupMeta d.metadata "chunk_id") ∧
    (∀ d : Doc, d.metadata = [] → chunk_key d = some (Nat.repr d.oid)) ∧
    (∀ d1 d2 : Doc, d1.metadata = [] → d2.metadata = [] →
      Nat.repr d1.oid ≠ Nat.repr d2.oid → chunk_key d1 ≠ chunk_key d2) ∧
    (∀ (d1 d2 : Doc) (s1 s2 : ℚ), chunk_key d1 = chunk_key d2 →
      (aggregate_scores [(d1, s1), (d2, s2)] []).length = 1) := by
  have key_empty : ∀ d : Doc, d.metadata = [] → chunk_key d = some (Nat.repr d.oid) := by
    intro d h
    unfold chunk_key
    rw [h]
  refine ⟨?_, key_empty, ?_, ?_⟩
  · intro d h
    unfold chunk_key
    cases hm : d.metadata with
    | nil => exact absurd hm h
    | cons p rest => rfl
  · intro d1 d2 h1 h2 hne
    rw [key_empty d1 h1, key_empty d2 h2]
    intro hc
    exact hne (Option.some.inj hc)
  · intro d1 d2 s1 s2 hk
    show (addDense d2 s2 (addDense d1 s1 [])).length = 1
    simp [addDense, hk]

/-- C4 witness: the amended characterization applied to concrete documents
with empty metadata and to the concrete colliding pair. -/
theorem C4_witness :
    chunk_key dE1 ≠ chunk_key dE2 ∧
    (aggregate_scores [(dX, 1), (dY, 2)] []).length = 1 :=
  ⟨C4_chunk_key_amended.2.2.1 dE1 dE2 rfl rfl (by decide),
    C4_chunk_key_amended.2.2.2 dX dY 1 2 (by decide)⟩

/-! Normalization lemmas. -/

theorem listMin_replicate (c : ℚ) : ∀ n, listMin c (List.replicate n c) = c := by
  intro n
  induction n with
  | zero => rfl
  | succ n ih =>
    rw [List.replicate_succ]
    show (List.replicate n c).foldl min (min c c) = c
    rw [min_self]
    exact ih

theorem listMax_replicate (c : ℚ) : ∀ n, listMax c (List.replicate n c) = c := by
  intro n
  induction n with
  | zero => rfl
  | succ n ih =>
    rw [List.replicate_succ]
    show (List.replicate n c).foldl max (max c c) = c
    rw [max_self]
    exact ih

/-- C7 counterexample: the list with minimum 0 and maximum one two-billionth has distinct minimum and maximum, yet normalize_scores maps it to all
1.0s because the spread is below the 1e-9 tolerance, so the minimum maps
to 1, not 0. -/
theorem C7_counterexample :
    normalize_scores [0, 1 / 2000000000] = [1, 1] ∧
    listMin 0 [(1 : ℚ) / 2000000000] = 0 ∧
    listMax 0 [(1 : ℚ) / 2000000000] = 1 / 2000000000 ∧
    (0 : ℚ) ≠ 1 / 2000000000 ∧
    (1 : ℚ) ≠ 0 := by
  have hmin : listMin 0 [(1 : ℚ) / 2000000000] = 0 := by
    show min 0 ((1 : ℚ) / 2000000000) = 0
    rw [min_eq_left (by norm_num)]
  have hmax : listMax 0 [(1 : ℚ) / 2000000000] = 1 / 2000000000 := by
    show max 0 ((1 : ℚ) / 2000000000) = 1 / 2000000000
    rw [max_eq_right (by norm_num)]
  refine ⟨?_, hmin, hmax, by norm_num, by norm_num⟩
  rw [normalize_scores, hmin, hmax]
  rw [if_pos (by rw [sub_zero]; rw [abs_of_pos (by norm_num)]; norm_num)]
  rfl

/-- C7 (amended): normalize_scores maps any non-empty list of equal
non-negative values (including all zeros) to all 1.0s, and for any list
whose maximum exceeds its minimum by at least the 1e-9 tolerance it
performs min-max normalization, under which the minimum maps to 0.0 and
the maximum to 1.0 (a list with distinct extremes closer than 1e-9 instead
normalizes to all 1.0s). -/
theorem C7_normalize_scores_amended :
    (∀ (n : Nat) (c : ℚ), 0 ≤ c →
      normalize_scores (List.replicate (n + 1) c) = List.replicate (n + 1) 1) ∧
    (∀ (v : ℚ) (vs : List ℚ),
      1 / 1000000000 ≤ listMax v vs - listMin v vs →
      normalize_scores (v :: vs) =
        (v :: vs).map
          (fun x => (x - listMin v vs) / (listMax v vs - listMin v vs)) ∧
      (listMin v vs - listMin v vs) / (listMax v vs - listMin v vs) = 0 ∧
      (listMax v vs - listMin v vs) / (listMax v vs - listMin v vs) = 1) := by
  constructor
  · intro n c _
    rw [List.replicate_succ]
    show normalize_scores (c :: List.replicate n c) = _
    rw [normalize_scores, listMin_replicate, listMax_replicate]
    rw [if_pos (by rw [sub_self, abs_zero]; norm_num)]
    simp
  · intro v vs h
    have hpos : (0 : ℚ) < listMax v vs - listMin v vs :=
      lt_of_lt_of_le (by norm_num) h
    refine ⟨?_, by rw [sub_self]; exact zero_div _, div_self (ne_of_gt hpos)⟩
    rw [normalize_scores, if_neg ?_]
    rw [abs_of_pos hpos]
    exact not_lt.mpr h

/-- C7 witness: the amended normalization theorem applied to the constant
list of two 2s and to the two-element list 0, 1. -/
theorem C7_witness :
    normalize_scores (List.replicate 2 (2 : ℚ)) = List.replicate 2 1 ∧
    normalize_scores [(0 : ℚ), 1] =
      [(0 : ℚ), 1].map
        (fun x => (x - listMin 0 [1]) / (listMax 0 [1] - listMin 0 [1])) :=
  ⟨C7_normalize_scores_amended.1 1 2 (by norm_num),
    (C7_normalize_scores_amended.2 0 [1] (by
      show (1 : ℚ) / 1000000000 ≤ max 0 1 - min 0 1
      rw [max_eq_right (by norm_num), min_eq_left (by norm_num)]
      norm_num)).1⟩

/-! Pipeline document-filter and mode-policy claims. -/

/-- C9: in exhaustive retrieval, when the explicit document-name filter
matches zero candidates the filter is discarded and the full unfiltered
candidate set is used, and when it matches at least one candidate exactly
the matching candidates are kept. -/
theorem C9_filter_widening :
    (∀ (f : String) (cs : List CtxEntry),
      (∀ c ∈ cs, doc_filter_matches f c.doc = false) →
      apply_document_filter f cs = cs) ∧
    (∀ (f : String) (cs : List CtxEntry) (c : CtxEntry), c ∈ cs →
      doc_filter_matches f c.doc = true →
      apply_document_filter f cs =
        cs.filter (fun c2 => doc_filter_matches f c2.doc)) := by
  constructor
  · intro f cs h
    unfold apply_document_filter
    rw [List.filter_eq_nil_iff.mpr (by intro c hc; simp [h c hc])]
    rfl
  · intro f cs c hc hmatch
    unfold apply_document_filter
    rw [if_neg ?_]
    intro hlen
    have : c ∈ cs.filter (fun c2 => doc_filter_matches f c2.doc) :=
      List.mem_filter.mpr ⟨hc, hmatch⟩
    rw [List.length_eq_zero.mp hlen] at this
    cases this

/-- C9 witness: the widening fallback applied to a filter string matching
none of the concrete candidates, and the narrowing path applied to one
matching a candidate. -/
theorem C9_witness :
    apply_document_filter "zzz" ces = ces ∧
    apply_document_filter "A" ces =
      ces.filter (fun c2 => doc_filter_matches "A" c2.doc) :=
  ⟨C9_filter_widening.1 "zzz" ces (by decide),
    C9_filter_widening.2 "A" ces eA1 (by decide) (by decide)⟩

/-- C3 counterexample: with exhaustive_mode true and a non-enumeration
question type the per-cluster minimum is the default formula max(2,
max_chunks / N) = 2, not the claimed max(1, max_chunks / (2 N)) = 1, and
in consequence the second cluster is starved where the claimed policy
would reserve it one slot. -/
theorem C3_counterexample :
    min_chunks_per_doc "general" 2 2 = 2 ∧
    max 1 (2 / (2 * 2)) = 1 ∧
    (2 : Nat) ≠ 1 ∧
    assemble_context_entries ces 2 true "general" = [eA1, eA2] ∧
    (∀ e2 ∈ assemble_context_entries ces 2 true "general",
      doc_name_of e2.doc ≠ "B") ∧
    doc_name_of eB1.doc = "B" ∧ eB1 ∈ ces := by
  decide

/-- C3 (amended): the effective token budget is tripled when
exhaustive_mode is true or question_type is list/count and equals the base
budget of 3500 otherwise, while the per-cluster minimum uses the halved
formula max(1, max_chunks / (2 N)) only when question_type is list/count;
in every other case, including exhaustive_mode true with a non-enumeration
question_type, it is max(2, max_chunks / N). -/
theorem C3_mode_policy_amended :
    CONTEXT_TOKEN_BUDGET = 3500 ∧
    (∀ (ex : Bool) (qt : String), is_list_or_count qt = true ∨ ex = true →
      effective_token_budget ex qt = CONTEXT_TOKEN_BUDGET * 3) ∧
    (∀ (ex : Bool) (qt : String), is_list_or_count qt = false → ex = false →
      effective_token_budget ex qt = CONTEXT_TOKEN_BUDGET) ∧
    (∀ (qt : String) (mc n : Nat), 0 < n → is_list_or_count qt = true →
      min_chunks_per_doc qt mc n = max 1 (mc / (n * 2))) ∧
    (∀ (qt : String) (mc n : Nat), 0 < n → is_list_or_count qt = false →
      min_chunks_per_doc qt mc n = max 2 (mc / n)) := by
  refine ⟨rfl, ?_, ?_, ?_, ?_⟩
  · intro ex qt h
    unfold effective_token_budget
    rcases h with h | h
    · rw [h, Bool.or_true, if_pos rfl]
    · rw [h, Bool.true_or, if_pos rfl]
  · intro ex qt h1 h2
    unfold effective_token_budget
    rw [h1, h2]
    rfl
  · intro qt mc n hn h
    unfold min_chunks_per_doc
    rw [h, if_pos rfl, if_pos (Nat.pos_iff_ne_zero.mp hn)]
  · intro qt mc n hn h
    unfold min_chunks_per_doc
    rw [h]
    simp only [Bool.false_eq_true, if_false]
    rw [if_pos (Nat.pos_iff_ne_zero.mp hn)]

/-- C3 witness: the amended mode policy instantiated at concrete modes and
cluster counts. -/
theorem C3_witness :
    effective_token_budget true "general" = CONTEXT_TOKEN_BUDGET * 3 ∧
    effective_token_budget false "list" = CONTEXT_TOKEN_BUDGET * 3 ∧
    effective_token_budget false "general" = CONTEXT_TOKEN_BUDGET ∧
    min_chunks_per_doc "list" 4 2 = max 1 (4 / (2 * 2)) ∧
    min_chunks_per_doc "general" 4 2 = max 2 (4 / 2) :=
  ⟨C3_mode_policy_amended.2.1 true "general" (Or.inr rfl),
    C3_mode_policy_amended.2.1 false "list" (Or.inl (by decide)),
    C3_mode_policy_amended.2.2.1 false "general" (by decide) rfl,
    C3_mode_policy_amended.2.2.2.1 "list" 4 2 (by decide) (by decide),
    C3_mode_policy_amended.2.2.2.2 "general" 4 2 (by decide) (by decide)⟩

/-- C1 counterexample: four candidates in two clusters of two entries,
max_chunks equal to the cluster count and a token budget that amply holds
every entry, yet in default mode the whole selection is spent on the first
cluster and cluster B contributes nothing. -/
theorem C1_counterexample :
    (groupByName ces).length = 2 ∧
    (∀ p ∈ groupByName ces, 2 ≤ p.2.length) ∧
    2 ≥ (groupByName ces).length ∧
    sumTokens ces ≤ CONTEXT_TOKEN_BUDGET ∧
    assemble_context_entries ces 2 false "general" = [eA1, eA2] ∧
    (∀ e2 ∈ assemble_context_entries ces 2 false "general",
      doc_name_of e2.doc ≠ "B") ∧
    doc_name_of eB1.doc = "B" ∧ eB1 ∈ ces := by
  decide

/-! Sorting and grouping lemmas. -/

theorem mem_insertDescBy {α : Type} (key : α → ℚ) (x : α) :
    ∀ (l : List α) (y : α), y ∈ insertDescBy key x l ↔ y = x ∨ y ∈ l := by
  intro l
  induction l with
  | nil => intro y; simp [insertDescBy]
  | cons z zs ih =>
    intro y
    unfold insertDescBy
    by_cases h : key x ≤ key z
    · rw [if_pos h]
      simp only [List.mem_cons, ih]
      tauto
    · rw [if_neg h]
      simp only [List.mem_cons]

theorem mem_foldl_insertDescBy {α : Type} (key : α → ℚ) :
    ∀ (l acc : List α) (y : α),
      y ∈ l.foldl (fun a x => insertDescBy key x a) acc ↔ y ∈ acc ∨ y ∈ l := by
  intro l
  induction l with
  | nil => intro acc y; simp
  | cons x xs ih =>
    intro acc y
    simp only [List.foldl_cons, ih, mem_insertDescBy, List.mem_cons]
    tauto

theorem mem_sortDescBy {α : Type} (key : α → ℚ) (l : List α) (y : α) :
    y ∈ sortDescBy key l ↔ y ∈ l := by
  unfold sortDescBy
  rw [mem_foldl_insertDescBy]
  simp

theorem length_insertDescBy {α : Type} (key : α → ℚ) (x : α) :
    ∀ l : List α, (insertDescBy key x l).length = l.length + 1 := by
  intro l
  induction l with
  | nil => rfl
  | cons z zs ih =>
    unfold insertDescBy
    by_cases h : key x ≤ key z
    · rw [if_pos h]
      simp [ih]
    · rw [if_neg h]
      rfl

theorem length_sortDescBy {α : Type} (key : α → ℚ) (l : List α) :
    (sortDescBy key l).length = l.length := by
  unfold sortDescBy
  suffices hgen : ∀ (l2 acc : List α),
      (l2.foldl (fun a x => insertDescBy key x a) acc).length =
        acc.length + l2.length by
    simpa using hgen l []
  intro l2
  induction l2 with
  | nil => intro acc; simp
  | cons x xs ih =>
    intro acc
    simp only [List.foldl_cons, ih, length_insertDescBy, List.length_cons]
    omega

theorem sum_insertDescBy {α : Type} (w : α → Nat) (key : α → ℚ) (x : α) :
    ∀ l : List α,
      ((insertDescBy key x l).map w).sum = w x + (l.map w).sum := by
  intro l
  induction l with
  | nil => simp [insertDescBy]
  | cons z zs ih =>
    unfold insertDescBy
    by_cases h : key x ≤ key z
    · rw [if_pos h]
      simp only [List.map_cons, List.sum_cons, ih]
      omega
    · rw [if_neg h]
      simp only [List.map_cons, List.sum_cons]

theorem sum_sortDescBy {α : Type} (w : α → Nat) (key : α → ℚ) (l : List α) :
    ((sortDescBy key l).map w).sum = (l.map w).sum := by
  unfold sortDescBy
  suffices hgen : ∀ (l2 acc : List α),
      ((l2.foldl (fun a x => insertDescBy key x a) acc).map w).sum =
        (acc.map w).sum + (l2.map w).sum by
    simpa using hgen l []
  intro l2
  induction l2 with
  | nil => intro acc; simp
  | cons x xs ih =>
    intro acc
    simp only [List.foldl_cons, ih, sum_insertDescBy, List.map_cons,
      List.sum_cons]
    omega

/-- Total token count of a cluster list. -/
def sumClusters (cls : List (String × List CtxEntry)) : Nat :=
  (cls.map (fun p => sumTokens p.2)).sum

theorem groupByName_names :
    ∀ (l : List CtxEntry), ∀ p ∈ groupByName l, ∀ x ∈ p.2,
      doc_name_of x.doc = p.1 := by
  have step : ∀ (acc : List (String × List CtxEntry)) (n : String) (e : CtxEntry),
      (∀ p ∈ acc, ∀ x ∈ p.2, doc_name_of x.doc = p.1) →
      doc_name_of e.doc = n →
      ∀ p ∈ addToCluster acc n e, ∀ x ∈ p.2, doc_name_of x.doc = p.1 := by
    intro acc
    induction acc with
    | nil =>
      intro n e _ he p hp x hx
      simp only [addToCluster, List.mem_singleton] at hp
      subst hp
      simp only [List.mem_singleton] at hx
      subst hx
      exact he
    | cons q rest ih =>
      intro n e hinv he p hp x hx
      obtain ⟨m, es⟩ := q
      unfold addToCluster at hp
      by_cases hm : m = n
      · rw [if_pos hm] at hp
        rcases List.mem_cons.mp hp with h | h
        · subst h
          rcases List.mem_append.mp hx with h2 | h2
          · exact hinv (m, es) (List.mem_cons_self _ _) x h2
          · simp only [List.mem_singleton] at h2
            subst h2
            rw [he, hm]
        · exact hinv p (List.mem_cons_of_mem _ h) x hx
      · rw [if_neg hm] at hp
        rcases List.mem_cons.mp hp with h | h
        · subst h
          exact hinv (m, es) (List.mem_cons_self _ _) x hx
        · exact ih n e (fun q2 hq2 => hinv q2 (List.mem_cons_of_mem _ hq2)) he
            p h x hx
  have gen : ∀ (l : List CtxEntry) (acc : List (String × List CtxEntry)),
      (∀ p ∈ acc, ∀ x ∈ p.2, doc_name_of x.doc = p.1) →
      ∀ p ∈ l.foldl (fun a e => addToCluster a (doc_name_of e.doc) e) acc,
        ∀ x ∈ p.2, doc_name_of x.doc = p.1 := by
    intro l
    induction l with
    | nil => intro acc hinv; exact hinv
    | cons e es ih =>
      intro acc hinv
      exact ih _ (step acc (doc_name_of e.doc) e hinv rfl)
  intro l
  exact gen l [] (by intro p hp; cases hp)

theorem groupByName_nonempty :
    ∀ (l : List CtxEntry), ∀ p ∈ groupByName l, p.2 ≠ [] := by
  have step : ∀ (acc : List (String × List CtxEntry)) (n : String) (e : CtxEntry),
      (∀ p ∈ acc, p.2 ≠ []) → ∀ p ∈ addToCluster acc n e, p.2 ≠ [] := by
    intro acc
    induction acc with
    | nil =>
      intro n e _ p hp
      simp only [addToCluster, List.mem_singleton] at hp
      subst hp
      simp
    | cons q rest ih =>
      intro n e hinv p hp
      obtain ⟨m, es⟩ := q
      unfold addToCluster at hp
      by_cases hm : m = n
      · rw [if_pos hm] at hp
        rcases List.mem_cons.mp hp with h | h
        · subst h; simp
        · exact hinv p (List.mem_cons_of_mem _ h)
      · rw [if_neg hm] at hp
        rcases List.mem_cons.mp hp with h | h
        · subst h; exact hinv (m, es) (List.mem_cons_self _ _)
        · exact ih n e (fun q2 hq2 => hinv q2 (List.mem_cons_of_mem _ hq2)) p h
  have gen : ∀ (l : List CtxEntry) (acc : List (String × List CtxEntry)),
      (∀ p ∈ acc, p.2 ≠ []) →
      ∀ p ∈ l.foldl (fun a e => addToCluster a (doc_name_of e.doc) e) acc,
        p.2 ≠ [] := by
    intro l
    induction l with
    | nil => intro acc hinv; exact hinv
    | cons e es ih =>
      intro acc hinv
      exact ih _ (step acc (doc_name_of e.doc) e hinv)
  intro l
  exact gen l [] (by intro p hp; cases hp)

theorem keys_addToCluster_self (n : String) (e : CtxEntry) :
    ∀ acc, n ∈ (addToCluster acc n e).map Prod.fst := by
  intro acc
  induction acc with
  | nil => simp [addToCluster]
  | cons q rest ih =>
    obtain ⟨m, es⟩ := q
    unfold addToCluster
    by_cases hm : m = n
    · rw [if_pos hm]
      simp [hm]
    · rw [if_neg hm]
      simp only [List.map_cons, List.mem_cons]
      exact Or.inr ih

theorem keys_addToCluster_mono (n : String) (e : CtxEntry) (m : String) :
    ∀ acc, m ∈ acc.map Prod.fst → m ∈ (addToCluster acc n e).map Prod.fst := by
  intro acc
  induction acc with
  | nil => intro h; cases h
  | cons q rest ih =>
    obtain ⟨m2, es⟩ := q
    intro h
    unfold addToCluster
    by_cases hm : m2 = n
    · rw [if_pos hm]
      simpa using h
    · rw [if_neg hm]
      rcases List.mem_cons.mp h with h2 | h2
      · simp [h2]
      · simp only [List.map_cons, List.mem_cons]
        exact Or.inr (ih h2)

theorem keys_groupByName (l : List CtxEntry) (e : CtxEntry) (he : e ∈ l) :
    doc_name_of e.doc ∈ (groupByName l).map Prod.fst := by
  have mono : ∀ (l2 : List CtxEntry) (acc : List (String × List CtxEntry))
      (m : String), m ∈ acc.map Prod.fst →
      m ∈ (l2.foldl (fun a x => addToCluster a (doc_name_of x.doc) x) acc).map
        Prod.fst := by
    intro l2
    induction l2 with
    | nil => intro acc m h; exact h
    | cons x xs ih =>
      intro acc m h
      exact ih _ m (keys_addToCluster_mono (doc_name_of x.doc) x m acc h)
  have gen : ∀ (l2 : List CtxEntry) (acc : List (String × List CtxEntry)),
      e ∈ l2 →
      doc_name_of e.doc ∈
        (l2.foldl (fun a x => addToCluster a (doc_name_of x.doc) x) acc).map
          Prod.fst := by
    intro l2
    induction l2 with
    | nil => intro acc h; cases h
    | cons x xs ih =>
      intro acc h
      rcases List.mem_cons.mp h with h2 | h2
      · subst h2
        exact mono xs _ _ (keys_addToCluster_self (doc_name_of e.doc) e acc)
      · exact ih _ h2
  exact gen l [] he

theorem sumClusters_addToCluster (n : String) (e : CtxEntry) :
    ∀ acc, sumClusters (addToCluster acc n e) =
      sumClusters acc + count_tokens_doc e.doc := by
  intro acc
  induction acc with
  | nil => simp [addToCluster, sumClusters, sumTokens]
  | cons q rest ih =>
    obtain ⟨m, es⟩ := q
    unfold addToCluster
    by_cases hm : m = n
    · rw [if_pos hm]
      simp only [sumClusters, List.map_cons, List.sum_cons, sumTokens,
        List.map_append, List.sum_append, List.map_nil]
      simp
      omega
    · rw [if_neg hm]
      simp only [sumClusters, List.map_cons, List.sum_cons] at ih ⊢
      omega

theorem sumClusters_groupByName (l : List CtxEntry) :
    sumClusters (groupByName l) = sumTokens l := by
  have gen : ∀ (l2 : List CtxEntry) (acc : List (String × List CtxEntry)),
      sumClusters
        (l2.foldl (fun a x => addToCluster a (doc_name_of x.doc) x) acc) =
        sumClusters acc + sumTokens l2 := by
    intro l2
    induction l2 with
    | nil => intro acc; simp [sumTokens]
    | cons x xs ih =>
      intro acc
      simp only [List.foldl_cons, ih, sumClusters_addToCluster, sumTokens,
        List.map_cons, List.sum_cons]
      omega
  simpa [sumClusters] using gen l []

theorem sumClusters_map_sort (cls : List (String × List CtxEntry)) :
    sumClusters (cls.map (fun p => (p.1, sortDescBy sortKeyScore p.2))) =
      sumClusters cls := by
  induction cls with
  | nil => rfl
  | cons p rest ih =>
    simp only [List.map_cons, sumClusters, List.sum_cons] at ih ⊢
    have hsum : sumTokens (sortDescBy sortKeyScore p.2) = sumTokens p.2 := by
      unfold sumTokens
      exact sum_sortDescBy (fun e => count_tokens_doc e.doc) sortKeyScore p.2
    rw [hsum]
    omega

theorem sumClusters_sortedClustersOf (entries : List CtxEntry) :
    sumClusters (sortedClustersOf entries) = sumTokens entries := by
  unfold sortedClustersOf
  have h1 := sum_sortDescBy (fun p => sumTokens p.2) clusterSortKey
    ((groupByName entries).map (fun p => (p.1, sortDescBy sortKeyScore p.2)))
  show sumClusters _ = _
  unfold sumClusters
  rw [h1]
  have h2 := sumClusters_map_sort (groupByName entries)
  unfold sumClusters at h2
  rw [h2]
  have h3 := sumClusters_groupByName entries
  unfold sumClusters at h3
  rw [h3]

theorem length_sortedClustersOf (entries : List CtxEntry) :
    (sortedClustersOf entries).length = (groupByName entries).length := by
  unfold sortedClustersOf
  rw [length_sortDescBy, List.length_map]

theorem sortedClustersOf_nonempty (entries : List CtxEntry) :
    ∀ p ∈ sortedClustersOf entries, p.2 ≠ [] := by
  intro p hp
  rw [sortedClustersOf, mem_sortDescBy] at hp
  obtain ⟨q, hq, hpq⟩ := List.mem_map.mp hp
  subst hpq
  intro hnil
  have hnil2 : sortDescBy sortKeyScore q.2 = [] := hnil
  have hlen := length_sortDescBy sortKeyScore q.2
  rw [hnil2] at hlen
  have hq0 : q.2.length = 0 := by simpa using hlen.symm
  exact groupByName_nonempty entries q hq (List.length_eq_zero.mp hq0)

theorem sortedClustersOf_names (entries : List CtxEntry) :
    ∀ p ∈ sortedClustersOf entries, ∀ x ∈ p.2, doc_name_of x.doc = p.1 := by
  intro p hp x hx
  rw [sortedClustersOf, mem_sortDescBy] at hp
  obtain ⟨q, hq, hpq⟩ := List.mem_map.mp hp
  subst hpq
  simp only at hx
  rw [mem_sortDescBy] at hx
  exact groupByName_names entries q hq x hx

theorem sortedClustersOf_covers (entries : List CtxEntry) (e : CtxEntry)
    (he : e ∈ entries) :
    ∃ p ∈ sortedClustersOf entries, p.1 = doc_name_of e.doc := by
  have h := keys_groupByName entries e he
  obtain ⟨q, hq, hname⟩ := List.mem_map.mp h
  refine ⟨(q.1, sortDescBy sortKeyScore q.2), ?_, hname⟩
  rw [sortedClustersOf, mem_sortDescBy]
  exact List.mem_map.mpr ⟨q, hq, rfl⟩

/-! Quota-pass and fill-pass lemmas. -/

theorem pass1Cluster_extends (lenient : Bool) (budget mc K : Nat) :
    ∀ (cl : List CtxEntry) (st : List CtxEntry × Nat) (added : Nat),
      ∃ δ, (pass1Cluster lenient budget mc K cl st added).1 = st.1 ++ δ := by
  intro cl
  induction cl with
  | nil => intro st added; exact ⟨[], by simp [pass1Cluster]⟩
  | cons e rest ih =>
    intro st added
    obtain ⟨final, tok⟩ := st
    simp only [pass1Cluster]
    split_ifs with h1 h2 h3
    · exact ⟨[], by simp⟩
    · exact ih (final, tok) added
    · exact ⟨[e], rfl⟩
    · obtain ⟨δ, hδ⟩ := ih (final ++ [e], tok + count_tokens_doc e.doc) (added + 1)
      exact ⟨e :: δ, by rw [hδ, List.append_assoc]; rfl⟩

theorem pass1_extends (lenient : Bool) (budget mc K : Nat) :
    ∀ (clusters : List (String × List CtxEntry)) (st : List CtxEntry × Nat),
      ∃ δ, (pass1 lenient budget mc K clusters st).1 = st.1 ++ δ := by
  intro clusters
  induction clusters with
  | nil => intro st; exact ⟨[], by simp [pass1]⟩
  | cons p rest ih =>
    intro st
    obtain ⟨n, cl⟩ := p
    obtain ⟨δ1, h1⟩ := pass1Cluster_extends lenient budget mc K cl st 0
    obtain ⟨δ2, h2⟩ := ih (pass1Cluster lenient budget mc K cl st 0)
    exact ⟨δ1 ++ δ2, by
      show (pass1 lenient budget mc K rest _).1 = _
      rw [h2, h1, List.append_assoc]⟩

theorem rrRound_extends (lenient : Bool) (budget mc : Nat) :
    ∀ (iters : List (List CtxEntry)) (st : List CtxEntry × Nat) (active : Nat),
      ∃ δ, ((rrRound lenient budget mc iters st active).2.1).1 = st.1 ++ δ := by
  intro iters
  induction iters with
  | nil => intro st active; exact ⟨[], by simp [rrRound]⟩
  | cons it rest ih =>
    intro st active
    obtain ⟨final, tok⟩ := st
    match it with
    | [] =>
      obtain ⟨δ, hδ⟩ := ih (final, tok) active
      exact ⟨δ, by simpa [rrRound] using hδ⟩
    | e :: it2 =>
      simp only [rrRound]
      split_ifs with h1 h2
      · exact ⟨[], by simp⟩
      · obtain ⟨δ, hδ⟩ := ih (final, tok) (active + 1)
        exact ⟨δ, hδ⟩
      · obtain ⟨δ, hδ⟩ := ih (final ++ [e], tok + count_tokens_doc e.doc)
          (active + 1)
        exact ⟨e :: δ, by rw [hδ, List.append_assoc]; rfl⟩

theorem rrLoop_extends (lenient : Bool) (budget mc : Nat) :
    ∀ (fuel active : Nat) (iters : List (List CtxEntry))
      (st : List CtxEntry × Nat),
      ∃ δ, (rrLoop lenient budget mc fuel active iters st).1 = st.1 ++ δ := by
  intro fuel
  induction fuel with
  | zero => intro active iters st; exact ⟨[], by simp [rrLoop]⟩
  | succ fuel ih =>
    intro active iters st
    simp only [rrLoop]
    split_ifs with h
    · obtain ⟨δ1, h1⟩ :=
        rrRound_extends lenient budget mc iters st 0
      obtain ⟨δ2, h2⟩ := ih (rrRound lenient budget mc iters st 0).2.2
        (rrRound lenient budget mc iters st 0).1
        (rrRound lenient budget mc iters st 0).2.1
      exact ⟨δ1 ++ δ2, by rw [h2, h1, List.append_assoc]⟩
    · exact ⟨[], by simp⟩

theorem pass1Cluster_length (lenient : Bool) (budget mc K : Nat) :
    ∀ (cl : List CtxEntry) (st : List CtxEntry × Nat) (added : Nat),
      added < K →
      (pass1Cluster lenient budget mc K cl st added).1.length ≤
        st.1.length + (K - added) := by
  intro cl
  induction cl with
  | nil => intro st added h; simp [pass1Cluster]
  | cons e rest ih =>
    intro st added h
    obtain ⟨final, tok⟩ := st
    simp only [pass1Cluster]
    split_ifs with h1 h2 h3
    · simp
    · have := ih (final, tok) added h
      simpa using this
    · simp only [List.length_append, List.length_singleton]
      omega
    · have h4 : added + 1 < K := by omega
      have := ih (final ++ [e], tok + count_tokens_doc e.doc) (added + 1) h4
      simp only [List.length_append, List.length_singleton] at this
      omega

theorem pass1Cluster_tok (lenient : Bool) (budget mc K : Nat) :
    ∀ (cl : List CtxEntry) (st : List CtxEntry × Nat) (added : Nat),
      (pass1Cluster lenient budget mc K cl st added).2 ≤
        st.2 + sumTokens cl := by
  intro cl
  induction cl with
  | nil => intro st added; simp [pass1Cluster, sumTokens]
  | cons e rest ih =>
    intro st added
    obtain ⟨final, tok⟩ := st
    simp only [pass1Cluster]
    have hsum : sumTokens (e :: rest) = count_tokens_doc e.doc + sumTokens rest := by
      simp [sumTokens]
    split_ifs with h1 h2 h3
    · simp
    · have := ih (final, tok) added
      simp only at this
      omega
    · simp only
      omega
    · have := ih (final ++ [e], tok + count_tokens_doc e.doc) (added + 1)
      simp only at this
      omega

theorem pass1Cluster_head_mem (lenient : Bool) (budget mc K : Nat)
    (e : CtxEntry) (rest : List CtxEntry) (st : List CtxEntry × Nat)
    (added : Nat) (hlen : st.1.length < mc)
    (hbud : lenient = true ∨ st.2 + count_tokens_doc e.doc ≤ budget) :
    e ∈ (pass1Cluster lenient budget mc K (e :: rest) st added).1 := by
  obtain ⟨final, tok⟩ := st
  simp only at hlen hbud
  simp only [pass1Cluster]
  have hskip : ¬ (lenient = false ∧ budget < tok + count_tokens_doc e.doc ∧
      final ≠ []) := by
    rcases hbud with h | h
    · intro hc; rw [h] at hc; cases hc.1
    · intro hc; omega
  rw [if_neg (by omega), if_neg hskip]
  split_ifs with h3
  · exact List.mem_append.mpr (Or.inr (List.mem_singleton.mpr rfl))
  · obtain ⟨δ, hδ⟩ := pass1Cluster_extends lenient budget mc K rest
      (final ++ [e], tok + count_tokens_doc e.doc) (added + 1)
    rw [hδ]
    exact List.mem_append.mpr (Or.inl
      (List.mem_append.mpr (Or.inr (List.mem_singleton.mpr rfl))))

theorem pass1_covers (lenient : Bool) (budget mc K : Nat) (hK : 1 ≤ K) :
    ∀ (clusters : List (String × List CtxEntry)) (st : List CtxEntry × Nat),
      (∀ p ∈ clusters, p.2 ≠ []) →
      st.1.length + (clusters.length - 1) * K < mc →
      (lenient = true ∨ st.2 + sumClusters clusters ≤ budget) →
      ∀ p ∈ clusters, ∃ e ∈ p.2,
        e ∈ (pass1 lenient budget mc K clusters st).1 := by
  intro clusters
  induction clusters with
  | nil => intro st _ _ _ p hp; cases hp
  | cons c rest ih =>
    intro st hne hmc hbud p hp
    obtain ⟨n, cl⟩ := c
    have hclne : cl ≠ [] := hne (n, cl) (List.mem_cons_self _ _)
    obtain ⟨e0, cl2, hcl⟩ := List.exists_cons_of_ne_nil hclne
    have hsumcl : sumClusters ((n, cl) :: rest) =
        sumTokens cl + sumClusters rest := by
      simp [sumClusters]
    rcases List.mem_cons.mp hp with hph | hpt
    · subst hph
      have hlen0 : st.1.length < mc := by omega
      have hbud0 : lenient = true ∨ st.2 + count_tokens_doc e0.doc ≤ budget := by
        rcases hbud with h | h
        · exact Or.inl h
        · refine Or.inr ?_
          have : count_tokens_doc e0.doc ≤ sumTokens cl := by
            rw [hcl]
            simp [sumTokens]
          omega
      have hmem : e0 ∈ (pass1Cluster lenient budget mc K cl st 0).1 := by
        rw [hcl]
        exact pass1Cluster_head_mem lenient budget mc K e0 cl2 st 0 hlen0 hbud0
      obtain ⟨δ, hδ⟩ := pass1_extends lenient budget mc K rest
        (pass1Cluster lenient budget mc K cl st 0)
      refine ⟨e0, by rw [hcl]; exact List.mem_cons_self _ _, ?_⟩
      show e0 ∈ (pass1 lenient budget mc K rest
        (pass1Cluster lenient budget mc K cl st 0)).1
      rw [hδ]
      exact List.mem_append.mpr (Or.inl hmem)
    · have hlen1 : (pass1Cluster lenient budget mc K cl st 0).1.length ≤
          st.1.length + K :=
        pass1Cluster_length lenient budget mc K cl st 0 hK
      have htok1 : (pass1Cluster lenient budget mc K cl st 0).2 ≤
          st.2 + sumTokens cl :=
        pass1Cluster_tok lenient budget mc K cl st 0
      obtain ⟨r, rs, hrest⟩ := List.exists_cons_of_ne_nil
        (List.ne_nil_of_mem hpt)
      have hmc2 : (pass1Cluster lenient budget mc K cl st 0).1.length +
          (rest.length - 1) * K < mc := by
        have hmul : rest.length * K = (rest.length - 1) * K + K := by
          rw [hrest]
          simp [Nat.succ_mul]
        have hmc3 : st.1.length + rest.length * K < mc := by
          simpa using hmc
        omega
      have hbud2 : lenient = true ∨
          (pass1Cluster lenient budget mc K cl st 0).2 + sumClusters rest ≤
            budget := by
        rcases hbud with h | h
        · exact Or.inl h
        · exact Or.inr (by omega)
      exact ih (pass1Cluster lenient budget mc K cl st 0)
        (fun q hq => hne q (List.mem_cons_of_mem _ hq)) hmc2 hbud2 p hpt

theorem one_le_min_chunks (qt : String) (mc n : Nat) :
    1 ≤ min_chunks_per_doc qt mc n := by
  unfold min_chunks_per_doc
  split_ifs with h1 h2 h3
  · exact le_max_left 1 _
  · exact le_refl 1
  · exact le_trans (by norm_num) (le_max_left 2 _)
  · exact le_refl 1

theorem assemble_eq (entries : List CtxEntry) (hne : entries ≠ [])
    (mc : Nat) (ex : Bool) (qt : String) :
    assemble_context_entries entries mc ex qt =
      (rrLoop (ex || is_list_or_count qt) (effective_token_budget ex qt) mc
        ((((sortedClustersOf entries).map
            (fun p => p.2.drop
              (min_chunks_per_doc qt mc (sortedClustersOf entries).length))).map
          List.length).sum + 2)
        ((sortedClustersOf entries).map
          (fun p => p.2.drop
            (min_chunks_per_doc qt mc (sortedClustersOf entries).length))).length
        ((sortedClustersOf entries).map
          (fun p => p.2.drop
            (min_chunks_per_doc qt mc (sortedClustersOf entries).length)))
        (pass1 (ex || is_list_or_count qt) (effective_token_budget ex qt) mc
          (min_chunks_per_doc qt mc (sortedClustersOf entries).length)
          (sortedClustersOf entries) ([], 0))).1 := by
  obtain ⟨e0, es, h⟩ := List.exists_cons_of_ne_nil hne
  subst h
  rfl

/-- C1 (amended): every cluster contributes at least one entry to the
assembled output provided max_chunks exceeds (N - 1) times the per-cluster
minimum quota (rather than merely max_chunks being at least N) and, in
default mode, the token budget is at least the total token count of all
candidate entries (in the lenient modes the quota pass ignores the budget);
the claim hypothesis that every cluster holds at least two entries is kept
although it is not needed. -/
theorem C1_document_diversity_amended
    (entries : List CtxEntry) (max_chunks : Nat) (exhaustive_mode : Bool)
    (question_type : String)
    (hne : entries ≠ [])
    (_hcl : ∀ p ∈ groupByName entries, 2 ≤ p.2.length)
    (hmc : ((groupByName entries).length - 1) *
        min_chunks_per_doc question_type max_chunks
          (groupByName entries).length < max_chunks)
    (hbudget : (exhaustive_mode || is_list_or_count question_type) = false →
      sumTokens entries ≤ CONTEXT_TOKEN_BUDGET) :
    ∀ e ∈ entries,
      ∃ e2 ∈ assemble_context_entries entries max_chunks exhaustive_mode
        question_type, doc_name_of e2.doc = doc_name_of e.doc := by
  intro e he
  have hKpos : 1 ≤ min_chunks_per_doc question_type max_chunks
      (sortedClustersOf entries).length :=
    one_le_min_chunks question_type max_chunks (sortedClustersOf entries).length
  have hmc2 : (([] : List CtxEntry).length +
      ((sortedClustersOf entries).length - 1) *
        min_chunks_per_doc question_type max_chunks
          (sortedClustersOf entries).length) < max_chunks := by
    rw [length_sortedClustersOf]
    simpa using hmc
  have hbud2 : (exhaustive_mode || is_list_or_count question_type) = true ∨
      (([], 0) : List CtxEntry × Nat).2 +
        sumClusters (sortedClustersOf entries) ≤
          effective_token_budget exhaustive_mode question_type := by
    cases hl : (exhaustive_mode || is_list_or_count question_type) with
    | true => exact Or.inl rfl
    | false =>
      refine Or.inr ?_
      have heff : effective_token_budget exhaustive_mode question_type =
          CONTEXT_TOKEN_BUDGET := by
        unfold effective_token_budget
        rw [hl]
        rfl
      rw [heff, sumClusters_sortedClustersOf]
      simpa using hbudget hl
  obtain ⟨p, hpSC, hpname⟩ := sortedClustersOf_covers entries e he
  obtain ⟨x, hxp, hxpass⟩ := pass1_covers
    (exhaustive_mode || is_list_or_count question_type)
    (effective_token_budget exhaustive_mode question_type)
    max_chunks
    (min_chunks_per_doc question_type max_chunks
      (sortedClustersOf entries).length)
    hKpos (sortedClustersOf entries) ([], 0)
    (sortedClustersOf_nonempty entries) hmc2 hbud2 p hpSC
  have hxname : doc_name_of x.doc = doc_name_of e.doc := by
    rw [sortedClustersOf_names entries p hpSC x hxp, hpname]
  rw [assemble_eq entries hne]
  obtain ⟨δ, hδ⟩ := rrLoop_extends
    (exhaustive_mode || is_list_or_count question_type)
    (effective_token_budget exhaustive_mode question_type)
    max_chunks _ _ _ _
  rw [hδ]
  exact ⟨x, List.mem_append.mpr (Or.inl hxpass), hxname⟩

/-- C1 witness: the amended diversity theorem applied to the concrete
two-cluster candidate set with max_chunks 4 in default mode, showing that
document B is represented in the output. -/
theorem C1_witness :
    ∃ e2 ∈ assemble_context_entries ces 4 false "general",
      doc_name_of e2.doc = doc_name_of eB1.doc :=
  C1_document_diversity_amended ces 4 false "general" (by decide) (by decide)
    (by decide) (by decide) eB1 (by decide)

/-- Token-accounting invariant of the default-mode assembler state: the
running total equals the token sum of the accepted list, and either the
total fits the budget or the list is a single (first, over-budget)
entry. -/
def TokInv (budget : Nat) (st : List CtxEntry × Nat) : Prop :=
  st.2 = sumTokens st.1 ∧ (st.2 ≤ budget ∨ ∃ e, st.1 = [e])

theorem sumTokens_append_one (l : List CtxEntry) (e : CtxEntry) :
    sumTokens (l ++ [e]) = sumTokens l + count_tokens_doc e.doc := by
  simp [sumTokens]

theorem tokInv_append (budget : Nat) (final : List CtxEntry) (tok : Nat)
    (e : CtxEntry) (h : TokInv budget (final, tok))
    (hcond : tok + count_tokens_doc e.doc ≤ budget ∨ final = []) :
    TokInv budget (final ++ [e], tok + count_tokens_doc e.doc) := by
  obtain ⟨heq, _⟩ := h
  have heq2 : tok = sumTokens final := heq
  refine ⟨?_, ?_⟩
  · show tok + count_tokens_doc e.doc = sumTokens (final ++ [e])
    rw [sumTokens_append_one, heq2]
  · rcases hcond with h2 | h2
    · exact Or.inl h2
    · exact Or.inr ⟨e, by rw [h2]; rfl⟩

theorem pass1Cluster_inv (budget mc K : Nat) :
    ∀ (cl : List CtxEntry) (st : List CtxEntry × Nat) (added : Nat),
      TokInv budget st →
      TokInv budget (pass1Cluster false budget mc K cl st added) := by
  intro cl
  induction cl with
  | nil => intro st added h; simpa [pass1Cluster] using h
  | cons e rest ih =>
    intro st added h
    obtain ⟨final, tok⟩ := st
    simp only [pass1Cluster]
    split_ifs with h1 h2 h3
    · exact h
    · exact ih (final, tok) added h
    · refine tokInv_append budget final tok e h ?_
      by_cases hf : final = []
      · exact Or.inr hf
      · left
        by_contra hgt
        exact h2 ⟨trivial, by omega, hf⟩
    · refine ih _ (added + 1) (tokInv_append budget final tok e h ?_)
      by_cases hf : final = []
      · exact Or.inr hf
      · left
        by_contra hgt
        exact h2 ⟨trivial, by omega, hf⟩

theorem pass1_inv (budget mc K : Nat) :
    ∀ (clusters : List (String × List CtxEntry)) (st : List CtxEntry × Nat),
      TokInv budget st →
      TokInv budget (pass1 false budget mc K clusters st) := by
  intro clusters
  induction clusters with
  | nil => intro st h; exact h
  | cons p rest ih =>
    intro st h
    obtain ⟨n, cl⟩ := p
    exact ih _ (pass1Cluster_inv budget mc K cl st 0 h)

theorem rrRound_inv (budget mc : Nat) :
    ∀ (iters : List (List CtxEntry)) (st : List CtxEntry × Nat) (active : Nat),
      TokInv budget st →
      TokInv budget (rrRound false budget mc iters st active).2.1 := by
  intro iters
  induction iters with
  | nil => intro st active h; exact h
  | cons it rest ih =>
    intro st active h
    obtain ⟨final, tok⟩ := st
    match it with
    | [] => exact ih (final, tok) active h
    | e :: it2 =>
      simp only [rrRound]
      split_ifs with h1 h2
      · exact h
      · exact ih (final, tok) (active + 1) h
      · refine ih _ (active + 1) (tokInv_append budget final tok e h ?_)
        left
        by_contra hgt
        exact h2 ⟨trivial, by omega⟩

theorem rrLoop_inv (budget mc : Nat) :
    ∀ (fuel active : Nat) (iters : List (List CtxEntry))
      (st : List CtxEntry × Nat),
      TokInv budget st →
      TokInv budget (rrLoop false budget mc fuel active iters st) := by
  intro fuel
  induction fuel with
  | zero => intro active iters st h; exact h
  | succ fuel ih =>
    intro active iters st h
    simp only [rrLoop]
    split_ifs with hcond
    · exact ih _ _ _ (rrRound_inv budget mc iters st 0 h)
    · exact h

/-- C6: in default mode (exhaustive_mode false, question_type not
list/count) the token sum of the assembled entries is at most the base
token budget, except that the output may consist of a single first
accepted entry admitted regardless of the budget. -/
theorem C6_token_budget_bound (entries : List CtxEntry) (mc : Nat)
    (qt : String) (h : is_list_or_count qt = false) :
    sumTokens (assemble_context_entries entries mc false qt) ≤
      CONTEXT_TOKEN_BUDGET ∨
    ∃ e, assemble_context_entries entries mc false qt = [e] := by
  by_cases hne : entries = []
  · subst hne
    left
    show sumTokens [] ≤ CONTEXT_TOKEN_BUDGET
    simp [sumTokens]
  · rw [assemble_eq entries hne]
    have hl : (false || is_list_or_count qt) = false := by
      rw [Bool.false_or, h]
    have heff : effective_token_budget false qt = CONTEXT_TOKEN_BUDGET := by
      unfold effective_token_budget
      rw [Bool.false_or, h]
      rfl
    rw [hl, heff]
    have hinv0 : TokInv CONTEXT_TOKEN_BUDGET ([], 0) :=
      ⟨by simp [sumTokens], Or.inl (Nat.zero_le _)⟩
    have hinv1 := pass1_inv CONTEXT_TOKEN_BUDGET mc
      (min_chunks_per_doc qt mc (sortedClustersOf entries).length)
      (sortedClustersOf entries) ([], 0) hinv0
    have hinv := rrLoop_inv CONTEXT_TOKEN_BUDGET mc
      ((((sortedClustersOf entries).map (fun p => p.2.drop
          (min_chunks_per_doc qt mc (sortedClustersOf entries).length))).map
        List.length).sum + 2)
      ((sortedClustersOf entries).map (fun p => p.2.drop
        (min_chunks_per_doc qt mc (sortedClustersOf entries).length))).length
      ((sortedClustersOf entries).map (fun p => p.2.drop
        (min_chunks_per_doc qt mc (sortedClustersOf entries).length)))
      (pass1 false CONTEXT_TOKEN_BUDGET mc
        (min_chunks_per_doc qt mc (sortedClustersOf entries).length)
        (sortedClustersOf entries) ([], 0))
      hinv1
    obtain ⟨heq, hdisj⟩ := hinv
    rcases hdisj with h2 | h2
    · left
      rw [← heq]
      exact h2
    · right
      exact h2

/-- C6 witness: the token-budget bound applied to the concrete candidate
set in default mode. -/
theorem C6_witness :
    sumTokens (assemble_context_entries ces 15 false "general") ≤
      CONTEXT_TOKEN_BUDGET ∨
    ∃ e, assemble_context_entries ces 15 false "general" = [e] :=
  C6_token_budget_bound ces 15 "general" (by decide)

end ChatWithData
